import Mathlib

/-!
Verification of the chunking core of `news_parsing_utils.py`:
the function `split_string_by_lines(long_string, max_length=4096)`.

Strings are modelled as `List Char` (Python strings are sequences of code
points).  `pySplitlines` models Python's `str.splitlines(keepends=True)`,
including the two-character terminator `\r\n` and the full set of
single-character line terminators recognised by Python.  The chunking loop
is modelled faithfully, with the limit as an `Int` (a Python `int`), so
that non-positive limits can be discussed.
-/

/-- The line-break characters recognised by Python's `str.splitlines`. -/
def isLineBreak (c : Char) : Bool :=
  c = '\n' || c = '\r' || c = '\x0b' || c = '\x0c' ||
  c = '\x1c' || c = '\x1d' || c = '\x1e' || c = '\x85' ||
  c = '\u2028' || c = '\u2029'

/-- Python's `str.splitlines(keepends=True)`: split into lines, each line
keeping its trailing terminator (`\r\n` counts as a single terminator). -/
def pySplitlines : List Char → List (List Char)
  | [] => []
  | c :: rest =>
    if isLineBreak c then
      if c = '\r' then
        match rest with
        | [] => [['\r']]
        | c2 :: rest2 =>
          if c2 = '\n' then ['\r', '\n'] :: pySplitlines rest2
          else ['\r'] :: pySplitlines (c2 :: rest2)
      else [c] :: pySplitlines rest
    else
      match pySplitlines rest with
      | [] => [[c]]
      | l :: ls => (c :: l) :: ls

/-- The loop body of `split_string_by_lines`: iterate over the lines keeping
an accumulator `current_chunk`, emitting completed chunks in order.  This is
the Python `for` loop of lines 117-146 together with the final flush. -/
def split_string_by_lines_loop (max_length : Int) :
    List (List Char) → List Char → List (List Char)
  | [], current_chunk => if current_chunk.isEmpty then [] else [current_chunk]
  | line :: rest, current_chunk =>
    if max_length ≤ (line.length : Int) then
      (if current_chunk.isEmpty then [] else [current_chunk]) ++
        line :: split_string_by_lines_loop max_length rest []
    else if max_length ≤ (current_chunk.length : Int) + (line.length : Int) then
      (if current_chunk.isEmpty then [] else [current_chunk]) ++
        split_string_by_lines_loop max_length rest line
    else
      split_string_by_lines_loop max_length rest (current_chunk ++ line)

/-- `split_string_by_lines` from `news_parsing_utils.py` (lines 93-148). -/
def split_string_by_lines (long_string : List Char) (max_length : Int := 4096) :
    List (List Char) :=
  split_string_by_lines_loop max_length (pySplitlines long_string) []

/-- Total character length of a run of lines. -/
def sumLen (r : List (List Char)) : Nat :=
  (r.map List.length).sum

/-- The same loop at the granularity of whole lines: the accumulator is kept
as the list of lines it consists of, and every chunk is produced as the run
of consecutive whole lines it is built from. -/
def chunkRunsLoop (max_length : Int) :
    List (List Char) → List (List Char) → List (List (List Char))
  | [], acc => if acc.isEmpty then [] else [acc]
  | line :: rest, acc =>
    if max_length ≤ (line.length : Int) then
      (if acc.isEmpty then [] else [acc]) ++ [line] :: chunkRunsLoop max_length rest []
    else if max_length ≤ (sumLen acc : Int) + (line.length : Int) then
      (if acc.isEmpty then [] else [acc]) ++ chunkRunsLoop max_length rest [line]
    else
      chunkRunsLoop max_length rest (acc ++ [line])

/-- The chunking of a line list into runs of consecutive whole lines. -/
def chunkRuns (max_length : Int) (lines : List (List Char)) :
    List (List (List Char)) :=
  chunkRunsLoop max_length lines []

/-- A part a line-respecting partition may use: a nonempty run of lines that
either has total length below the limit or is a single line. -/
def ValidPart (max_length : Int) (p : List (List Char)) : Prop :=
  p ≠ [] ∧ ((sumLen p : Int) < max_length ∨ ∃ l, p = [l])

/-- A line-respecting partition of `lines` into valid parts. -/
def ValidPartition (max_length : Int) (P : List (List (List Char)))
    (lines : List (List Char)) : Prop :=
  P.flatten = lines ∧ ∀ p ∈ P, ValidPart max_length p

/-- Greedy packing of lines: take lines while the running total stays below
the limit (`accLen` is the length already accumulated). -/
def greedyTake (max_length : Int) : Int → List (List Char) → List (List Char)
  | _, [] => []
  | accLen, l :: rest =>
    if max_length ≤ accLen + (l.length : Int) then []
    else l :: greedyTake max_length (accLen + (l.length : Int)) rest

/-- The first chunk the greedy algorithm forms from a line list: a single
oversized line, or the longest prefix of total length below the limit. -/
def greedyFirst (max_length : Int) : List (List Char) → List (List Char)
  | [] => []
  | l :: rest =>
    if max_length ≤ (l.length : Int) then [l]
    else l :: greedyTake max_length (l.length : Int) rest

/-- First line of the exact-boundary example: `"a"*2000 + "\n"`. -/
def c7line1 : List Char := List.replicate 2000 'a' ++ ['\n']

/-- Second line of the exact-boundary example: `"b"*2096 + "\n"`. -/
def c7line2 : List Char := List.replicate 2096 'b' ++ ['\n']

/-- The exact-boundary example input: the two lines concatenated. -/
def c7input : List Char := c7line1 ++ c7line2

/-- A short line for the mixed example. -/
def mixedShort1 : List Char := ['a', 'b', '\n']

/-- A 5000-character line for the mixed example. -/
def mixedLong : List Char := List.replicate 4999 'x' ++ ['\n']

/-- Another short line for the mixed example. -/
def mixedShort2 : List Char := ['c', 'd', '\n']

/-- The mixed example input: short line, 5000-character line, short line. -/
def mixedInput : List Char := mixedShort1 ++ (mixedLong ++ mixedShort2)

/-! ### Clean rewriting equations for `pySplitlines` -/

theorem pySplitlines_nil : pySplitlines [] = [] := rfl

theorem pySplitlines_cr_nil : pySplitlines ['\r'] = [['\r']] := by
  simp [pySplitlines]

theorem pySplitlines_crlf (rest : List Char) :
    pySplitlines ('\r' :: '\n' :: rest) = ['\r', '\n'] :: pySplitlines rest := by
  rw [pySplitlines.eq_3]
  simp [isLineBreak]

theorem pySplitlines_cr_other (c2 : Char) (rest2 : List Char) (h : c2 ≠ '\n') :
    pySplitlines ('\r' :: c2 :: rest2) = ['\r'] :: pySplitlines (c2 :: rest2) := by
  rw [pySplitlines.eq_3]
  simp [isLineBreak, h]

theorem pySplitlines_break (c : Char) (rest : List Char)
    (hb : isLineBreak c = true) (hr : c ≠ '\r') :
    pySplitlines (c :: rest) = [c] :: pySplitlines rest := by
  cases rest with
  | nil => rw [pySplitlines.eq_2]; simp [hb, hr]
  | cons c2 rest2 => rw [pySplitlines.eq_3]; simp [hb, hr]

theorem pySplitlines_nonbreak (c : Char) (rest : List Char)
    (hnb : isLineBreak c = false) :
    pySplitlines (c :: rest) =
      match pySplitlines rest with
      | [] => [[c]]
      | l :: ls => (c :: l) :: ls := by
  cases rest with
  | nil => rw [pySplitlines.eq_2]; simp [hnb]
  | cons c2 rest2 => rw [pySplitlines.eq_3]; simp [hnb]

/-! ### Basic structure of `pySplitlines` -/

/-- Concatenating the lines produced by `pySplitlines` restores the string. -/
theorem pySplitlines_flatten (s : List Char) : (pySplitlines s).flatten = s := by
  induction s using pySplitlines.induct with
  | case1 => rfl
  | case2 h => rw [pySplitlines_cr_nil]; rfl
  | case3 rest2 h ih => rw [pySplitlines_crlf]; simpa using ih
  | case4 c2 rest2 hne h ih => rw [pySplitlines_cr_other c2 rest2 hne]; simpa using ih
  | case5 c rest hb hne ih =>
    rw [pySplitlines_break c rest hb hne]; simpa using ih
  | case6 c rest hnb heq ih =>
    rw [pySplitlines_nonbreak c rest (by simpa using hnb), heq]
    rw [heq] at ih
    simp at ih
    simp [← ih]
  | case7 c rest hnb l ls heq ih =>
    rw [pySplitlines_nonbreak c rest (by simpa using hnb), heq]
    rw [heq] at ih
    simp only [List.flatten_cons] at ih ⊢
    simp [← ih]

/-- Every line produced by `pySplitlines` is nonempty. -/
theorem pySplitlines_ne_nil {s : List Char} {l : List Char}
    (hl : l ∈ pySplitlines s) : l ≠ [] := by
  induction s using pySplitlines.induct with
  | case1 => simp [pySplitlines_nil] at hl
  | case2 h =>
    rw [pySplitlines_cr_nil] at hl
    simp at hl
    simp [hl]
  | case3 rest2 h ih =>
    rw [pySplitlines_crlf] at hl
    rcases List.mem_cons.1 hl with h1 | h1
    · simp [h1]
    · exact ih h1
  | case4 c2 rest2 hne h ih =>
    rw [pySplitlines_cr_other c2 rest2 hne] at hl
    rcases List.mem_cons.1 hl with h1 | h1
    · simp [h1]
    · exact ih h1
  | case5 c rest hb hne ih =>
    rw [pySplitlines_break c rest hb hne] at hl
    rcases List.mem_cons.1 hl with h1 | h1
    · simp [h1]
    · exact ih h1
  | case6 c rest hnb heq ih =>
    rw [pySplitlines_nonbreak c rest (by simpa using hnb), heq] at hl
    simp at hl
    simp [hl]
  | case7 c rest hnb l' ls heq ih =>
    rw [pySplitlines_nonbreak c rest (by simpa using hnb), heq] at hl
    rcases List.mem_cons.1 hl with h1 | h1
    · simp [h1]
    · exact ih (by rw [heq]; exact List.mem_cons_of_mem l' h1)


/-! ### Unfolding equations for the chunking loop -/

theorem loop_nil (max_length : Int) (acc : List Char) :
    split_string_by_lines_loop max_length [] acc =
      if acc.isEmpty then [] else [acc] := rfl

theorem loop_cons_big (max_length : Int) (line : List Char)
    (rest : List (List Char)) (acc : List Char)
    (h1 : max_length ≤ (line.length : Int)) :
    split_string_by_lines_loop max_length (line :: rest) acc =
      (if acc.isEmpty then [] else [acc]) ++
        line :: split_string_by_lines_loop max_length rest [] := by
  simp only [split_string_by_lines_loop, if_pos h1]

theorem loop_cons_flush (max_length : Int) (line : List Char)
    (rest : List (List Char)) (acc : List Char)
    (h1 : ¬max_length ≤ (line.length : Int))
    (h2 : max_length ≤ (acc.length : Int) + (line.length : Int)) :
    split_string_by_lines_loop max_length (line :: rest) acc =
      (if acc.isEmpty then [] else [acc]) ++
        split_string_by_lines_loop max_length rest line := by
  simp only [split_string_by_lines_loop, if_neg h1, if_pos h2]

theorem loop_cons_acc (max_length : Int) (line : List Char)
    (rest : List (List Char)) (acc : List Char)
    (h1 : ¬max_length ≤ (line.length : Int))
    (h2 : ¬max_length ≤ (acc.length : Int) + (line.length : Int)) :
    split_string_by_lines_loop max_length (line :: rest) acc =
      split_string_by_lines_loop max_length rest (acc ++ line) := by
  simp only [split_string_by_lines_loop, if_neg h1, if_neg h2]

theorem runs_nil (max_length : Int) (acc : List (List Char)) :
    chunkRunsLoop max_length [] acc =
      if acc.isEmpty then [] else [acc] := rfl

theorem runs_cons_big (max_length : Int) (line : List Char)
    (rest : List (List Char)) (acc : List (List Char))
    (h1 : max_length ≤ (line.length : Int)) :
    chunkRunsLoop max_length (line :: rest) acc =
      (if acc.isEmpty then [] else [acc]) ++
        [line] :: chunkRunsLoop max_length rest [] := by
  simp only [chunkRunsLoop, if_pos h1]

theorem runs_cons_flush (max_length : Int) (line : List Char)
    (rest : List (List Char)) (acc : List (List Char))
    (h1 : ¬max_length ≤ (line.length : Int))
    (h2 : max_length ≤ (sumLen acc : Int) + (line.length : Int)) :
    chunkRunsLoop max_length (line :: rest) acc =
      (if acc.isEmpty then [] else [acc]) ++
        chunkRunsLoop max_length rest [line] := by
  simp only [chunkRunsLoop, if_neg h1, if_pos h2]

theorem runs_cons_acc (max_length : Int) (line : List Char)
    (rest : List (List Char)) (acc : List (List Char))
    (h1 : ¬max_length ≤ (line.length : Int))
    (h2 : ¬max_length ≤ (sumLen acc : Int) + (line.length : Int)) :
    chunkRunsLoop max_length (line :: rest) acc =
      chunkRunsLoop max_length rest (acc ++ [line]) := by
  simp only [chunkRunsLoop, if_neg h1, if_neg h2]

/-! ### Structure of the chunking loop -/

theorem flushIf_cons {α : Type} (a : α) (as : List α) :
    (if (a :: as).isEmpty then ([] : List (List α)) else [a :: as]) = [a :: as] := rfl

theorem flushIf_nil {α : Type} :
    (if ([] : List α).isEmpty then ([] : List (List α)) else [[]]) = [] := rfl

theorem split_string_by_lines_loop_flatten (max_length : Int)
    (lines : List (List Char)) (acc : List Char) :
    (split_string_by_lines_loop max_length lines acc).flatten =
      acc ++ lines.flatten := by
  induction lines generalizing acc with
  | nil =>
    rw [loop_nil]
    cases acc <;> simp
  | cons line rest ih =>
    by_cases h1 : max_length ≤ (line.length : Int)
    · rw [loop_cons_big max_length line rest acc h1]
      cases acc <;> simp [ih]
    · by_cases h2 : max_length ≤ (acc.length : Int) + (line.length : Int)
      · rw [loop_cons_flush max_length line rest acc h1 h2]
        cases acc <;> simp [ih]
      · rw [loop_cons_acc max_length line rest acc h1 h2]
        simp [ih]

theorem split_string_by_lines_loop_ne_nil (max_length : Int)
    {lines : List (List Char)} (hlines : ∀ l ∈ lines, l ≠ [])
    (acc : List Char) :
    ∀ c ∈ split_string_by_lines_loop max_length lines acc, c ≠ [] := by
  induction lines generalizing acc with
  | nil =>
    intro c hc
    rw [loop_nil] at hc
    cases acc with
    | nil => simp at hc
    | cons a as =>
      simp at hc
      simp [hc]
  | cons line rest ih =>
    intro c hc
    have hline : line ≠ [] := hlines line (List.mem_cons_self line rest)
    have hrest : ∀ l ∈ rest, l ≠ [] := fun l hl => hlines l (List.mem_cons_of_mem line hl)
    by_cases h1 : max_length ≤ (line.length : Int)
    · rw [loop_cons_big max_length line rest acc h1] at hc
      rcases List.mem_append.1 hc with h | h
      · cases acc with
        | nil => simp at h
        | cons a as =>
          simp at h
          simp [h]
      · rcases List.mem_cons.1 h with h | h
        · exact h ▸ hline
        · exact ih hrest [] c h
    · by_cases h2 : max_length ≤ (acc.length : Int) + (line.length : Int)
      · rw [loop_cons_flush max_length line rest acc h1 h2] at hc
        rcases List.mem_append.1 hc with h | h
        · cases acc with
          | nil => simp at h
          | cons a as =>
            simp at h
            simp [h]
        · exact ih hrest line c h
      · rw [loop_cons_acc max_length line rest acc h1 h2] at hc
        exact ih hrest (acc ++ line) c hc

/-- If the accumulator is nonempty, the first chunk the loop produces
extends it: the loop's output is `(acc ++ t) :: rest2` for some `t`. -/
theorem split_string_by_lines_loop_head (max_length : Int)
    (lines : List (List Char)) (acc : List Char) (hacc : acc ≠ []) :
    ∃ t rest2,
      split_string_by_lines_loop max_length lines acc = (acc ++ t) :: rest2 := by
  have hemp : acc.isEmpty = false := by
    cases acc with
    | nil => exact absurd rfl hacc
    | cons a as => rfl
  induction lines generalizing acc with
  | nil =>
    refine ⟨[], [], ?_⟩
    rw [loop_nil, hemp]
    simp
  | cons line rest ih =>
    by_cases h1 : max_length ≤ (line.length : Int)
    · rw [loop_cons_big max_length line rest acc h1, hemp]
      exact ⟨[], line :: split_string_by_lines_loop max_length rest [], by simp⟩
    · by_cases h2 : max_length ≤ (acc.length : Int) + (line.length : Int)
      · rw [loop_cons_flush max_length line rest acc h1 h2, hemp]
        exact ⟨[], split_string_by_lines_loop max_length rest line, by simp⟩
      · rw [loop_cons_acc max_length line rest acc h1 h2]
        have hacc2 : acc ++ line ≠ [] := by simp [hacc]
        have hemp2 : (acc ++ line).isEmpty = false := by
          cases hx : acc ++ line with
          | nil => exact absurd hx hacc2
          | cons a as => rfl
        obtain ⟨t, rest2, ht⟩ := ih (acc ++ line) hacc2 hemp2
        exact ⟨line ++ t, rest2, by simp [ht]⟩

/-- Any two consecutive chunks the loop emits have combined length at least
the limit. -/
theorem split_string_by_lines_loop_chain (max_length : Int)
    {lines : List (List Char)} (hlines : ∀ l ∈ lines, l ≠ [])
    (acc : List Char) :
    List.Chain' (fun a b => max_length ≤ (a.length : Int) + (b.length : Int))
      (split_string_by_lines_loop max_length lines acc) := by
  induction lines generalizing acc with
  | nil =>
    rw [loop_nil]
    cases acc <;> simp
  | cons line rest ih =>
    have hline : line ≠ [] := hlines line (List.mem_cons_self line rest)
    have hrest : ∀ l ∈ rest, l ≠ [] := fun l hl => hlines l (List.mem_cons_of_mem line hl)
    by_cases h1 : max_length ≤ (line.length : Int)
    · rw [loop_cons_big max_length line rest acc h1]
      have hchain : List.Chain'
          (fun a b => max_length ≤ (a.length : Int) + (b.length : Int))
          (line :: split_string_by_lines_loop max_length rest []) := by
        rw [List.chain'_cons']
        refine ⟨?_, ih hrest []⟩
        intro y hy
        have : (0 : Int) ≤ (y.length : Int) := Int.natCast_nonneg _
        omega
      cases acc with
      | nil => simpa using hchain
      | cons a as =>
        rw [flushIf_cons, List.singleton_append, List.chain'_cons]
        refine ⟨?_, hchain⟩
        have : (0 : Int) ≤ (((a :: as).length : Nat) : Int) := Int.natCast_nonneg _
        omega
    · by_cases h2 : max_length ≤ (acc.length : Int) + (line.length : Int)
      · rw [loop_cons_flush max_length line rest acc h1 h2]
        cases acc with
        | nil =>
          exfalso
          simp at h2
          omega
        | cons a as =>
          rw [flushIf_cons, List.singleton_append]
          obtain ⟨t, rest2, ht⟩ :=
            split_string_by_lines_loop_head max_length rest line hline
          rw [ht, List.chain'_cons]
          constructor
          · have : (0 : Int) ≤ (t.length : Int) := Int.natCast_nonneg _
            simp only [List.length_append]
            push_cast
            omega
          · rw [← ht]
            exact ih hrest line
      · rw [loop_cons_acc max_length line rest acc h1 h2]
        exact ih hrest (acc ++ line)

/-! ### The run-level loop -/

theorem sumLen_nil : sumLen [] = 0 := rfl

theorem sumLen_cons (l : List Char) (r : List (List Char)) :
    sumLen (l :: r) = l.length + sumLen r := by
  simp [sumLen]

theorem sumLen_append (r1 r2 : List (List Char)) :
    sumLen (r1 ++ r2) = sumLen r1 + sumLen r2 := by
  simp [sumLen]

theorem sumLen_singleton (l : List Char) : sumLen [l] = l.length := by
  simp [sumLen]

theorem length_flatten_eq_sumLen (r : List (List Char)) :
    r.flatten.length = sumLen r := by
  simp [sumLen]

theorem chunkRunsLoop_flatten (max_length : Int)
    (lines : List (List Char)) (acc : List (List Char)) :
    (chunkRunsLoop max_length lines acc).flatten = acc ++ lines := by
  induction lines generalizing acc with
  | nil =>
    rw [runs_nil]
    cases acc <;> simp
  | cons line rest ih =>
    by_cases h1 : max_length ≤ (line.length : Int)
    · rw [runs_cons_big max_length line rest acc h1]
      cases acc <;> simp [ih]
    · by_cases h2 : max_length ≤ (sumLen acc : Int) + (line.length : Int)
      · rw [runs_cons_flush max_length line rest acc h1 h2]
        cases acc <;> simp [ih]
      · rw [runs_cons_acc max_length line rest acc h1 h2]
        simp [ih]

theorem chunkRunsLoop_ne_nil (max_length : Int)
    (lines : List (List Char)) (acc : List (List Char)) :
    ∀ r ∈ chunkRunsLoop max_length lines acc, r ≠ [] := by
  induction lines generalizing acc with
  | nil =>
    intro r hr
    rw [runs_nil] at hr
    cases acc with
    | nil => simp at hr
    | cons a as =>
      simp at hr
      simp [hr]
  | cons line rest ih =>
    intro r hr
    by_cases h1 : max_length ≤ (line.length : Int)
    · rw [runs_cons_big max_length line rest acc h1] at hr
      rcases List.mem_append.1 hr with h | h
      · cases acc with
        | nil => simp at h
        | cons a as =>
          simp at h
          simp [h]
      · rcases List.mem_cons.1 h with h | h
        · simp [h]
        · exact ih [] r h
    · by_cases h2 : max_length ≤ (sumLen acc : Int) + (line.length : Int)
      · rw [runs_cons_flush max_length line rest acc h1 h2] at hr
        rcases List.mem_append.1 hr with h | h
        · cases acc with
          | nil => simp at h
          | cons a as =>
            simp at h
            simp [h]
        · exact ih [line] r h
      · rw [runs_cons_acc max_length line rest acc h1 h2] at hr
        exact ih (acc ++ [line]) r hr

/-- Size invariant: with a positive limit, every run the loop emits either
has total length below the limit or is a single oversized line. -/
theorem chunkRunsLoop_small {max_length : Int} (h0 : 0 < max_length)
    (lines : List (List Char)) (acc : List (List Char))
    (hacc : (sumLen acc : Int) < max_length) :
    ∀ r ∈ chunkRunsLoop max_length lines acc,
      (sumLen r : Int) < max_length ∨
        ∃ l, r = [l] ∧ max_length ≤ (l.length : Int) := by
  induction lines generalizing acc with
  | nil =>
    intro r hr
    rw [runs_nil] at hr
    cases acc with
    | nil => simp at hr
    | cons a as =>
      simp at hr
      left
      rw [hr]
      exact hacc
  | cons line rest ih =>
    intro r hr
    by_cases h1 : max_length ≤ (line.length : Int)
    · rw [runs_cons_big max_length line rest acc h1] at hr
      rcases List.mem_append.1 hr with h | h
      · cases acc with
        | nil => simp at h
        | cons a as =>
          simp at h
          left
          rw [h]
          exact hacc
      · rcases List.mem_cons.1 h with h | h
        · right
          exact ⟨line, h, h1⟩
        · exact ih [] (by simpa [sumLen_nil] using h0) r h
    · by_cases h2 : max_length ≤ (sumLen acc : Int) + (line.length : Int)
      · rw [runs_cons_flush max_length line rest acc h1 h2] at hr
        rcases List.mem_append.1 hr with h | h
        · cases acc with
          | nil => simp at h
          | cons a as =>
            simp at h
            left
            rw [h]
            exact hacc
        · refine ih [line] ?_ r h
          rw [sumLen_singleton]
          omega
      · rw [runs_cons_acc max_length line rest acc h1 h2] at hr
        refine ih (acc ++ [line]) ?_ r hr
        rw [sumLen_append, sumLen_singleton]
        push_cast
        omega

/-! ### Correspondence between the two loops -/

theorem flatten_ne_nil {acc : List (List Char)} (hmem : [] ∉ acc)
    (hacc : acc ≠ []) : acc.flatten ≠ [] := by
  cases acc with
  | nil => exact absurd rfl hacc
  | cons a as =>
    have ha : a ≠ [] := fun h => hmem (h ▸ List.mem_cons_self a as)
    cases a with
    | nil => exact absurd rfl ha
    | cons c cs => simp

theorem loop_eq_runs (max_length : Int) (lines : List (List Char))
    (hlines : ∀ l ∈ lines, l ≠ []) (acc : List (List Char))
    (hmem : [] ∉ acc) :
    split_string_by_lines_loop max_length lines acc.flatten =
      (chunkRunsLoop max_length lines acc).map List.flatten := by
  induction lines generalizing acc with
  | nil =>
    rw [loop_nil, runs_nil]
    cases acc with
    | nil => simp
    | cons a as =>
      have h1 : (a :: as).flatten ≠ [] := flatten_ne_nil hmem (by simp)
      have h2 : ((a :: as).flatten).isEmpty = false := by
        cases hx : (a :: as).flatten with
        | nil => exact absurd hx h1
        | cons x xs => rfl
      rw [h2, flushIf_cons]
      simp
  | cons line rest ih =>
    have hline : line ≠ [] := hlines line (List.mem_cons_self line rest)
    have hrest : ∀ l ∈ rest, l ≠ [] := fun l hl => hlines l (List.mem_cons_of_mem line hl)
    have hflush : (if acc.flatten.isEmpty then ([] : List (List Char))
        else [acc.flatten]) =
        (if acc.isEmpty then ([] : List (List (List Char)))
          else [acc]).map List.flatten := by
      cases acc with
      | nil => simp
      | cons a as =>
        have h1 : (a :: as).flatten ≠ [] := flatten_ne_nil hmem (by simp)
        have h2 : ((a :: as).flatten).isEmpty = false := by
          cases hx : (a :: as).flatten with
          | nil => exact absurd hx h1
          | cons x xs => rfl
        rw [h2, flushIf_cons]
        simp
    have hlen : (acc.flatten.length : Int) = (sumLen acc : Int) := by
      rw [length_flatten_eq_sumLen]
    by_cases h1 : max_length ≤ (line.length : Int)
    · rw [loop_cons_big max_length line rest acc.flatten h1,
        runs_cons_big max_length line rest acc h1]
      rw [List.map_append, ← hflush, List.map_cons]
      have := ih hrest [] (by simp)
      simp only [List.flatten_nil] at this
      rw [this]
      simp
    · by_cases h2 : max_length ≤ (sumLen acc : Int) + (line.length : Int)
      · rw [loop_cons_flush max_length line rest acc.flatten h1 (by rw [hlen]; exact h2),
          runs_cons_flush max_length line rest acc h1 h2]
        rw [List.map_append, ← hflush]
        have := ih hrest [line]
          (by intro hx; simp at hx; exact hline hx)
        simp only [List.flatten_cons, List.flatten_nil, List.append_nil] at this
        rw [this]
      · rw [loop_cons_acc max_length line rest acc.flatten h1 (by rw [hlen]; exact h2),
          runs_cons_acc max_length line rest acc h1 h2]
        have hmem2 : [] ∉ acc ++ [line] := by
          intro hx
          rcases List.mem_append.1 hx with hx | hx
          · exact hmem hx
          · simp at hx
            exact hline hx
        have := ih hrest (acc ++ [line]) hmem2
        simp only [List.flatten_append, List.flatten_cons, List.flatten_nil,
          List.append_nil] at this
        rw [this]

/-- `split_string_by_lines` is the flattening of the run-level chunking. -/
theorem split_eq_chunkRuns (long_string : List Char) (max_length : Int) :
    split_string_by_lines long_string max_length =
      (chunkRuns max_length (pySplitlines long_string)).map List.flatten := by
  have := loop_eq_runs max_length (pySplitlines long_string)
    (fun l hl => pySplitlines_ne_nil hl) [] (by simp)
  simpa [split_string_by_lines, chunkRuns] using this

/-! ### Greedy decomposition of the run-level chunking -/

theorem greedyTake_nil (max_length accLen : Int) :
    greedyTake max_length accLen [] = [] := rfl

theorem greedyTake_cons_stop (max_length accLen : Int) (l : List Char)
    (rest : List (List Char)) (h : max_length ≤ accLen + (l.length : Int)) :
    greedyTake max_length accLen (l :: rest) = [] := by
  simp only [greedyTake, if_pos h]

theorem greedyTake_cons_go (max_length accLen : Int) (l : List Char)
    (rest : List (List Char)) (h : ¬max_length ≤ accLen + (l.length : Int)) :
    greedyTake max_length accLen (l :: rest) =
      l :: greedyTake max_length (accLen + (l.length : Int)) rest := by
  simp only [greedyTake, if_neg h]

/-- With a nonempty, still-small accumulator, the run-level loop finishes the
current chunk by greedily taking lines while the total stays below the limit,
and then chunks the remainder from scratch. -/
theorem runs_decomp (max_length : Int) (lines : List (List Char))
    (acc : List (List Char)) (hacc : acc ≠ [])
    (hsmall : (sumLen acc : Int) < max_length) :
    chunkRunsLoop max_length lines acc =
      (acc ++ greedyTake max_length (sumLen acc : Int) lines) ::
        chunkRuns max_length
          (lines.drop (greedyTake max_length (sumLen acc : Int) lines).length) := by
  have hemp : acc.isEmpty = false := by
    cases acc with
    | nil => exact absurd rfl hacc
    | cons a as => rfl
  induction lines generalizing acc with
  | nil =>
    rw [runs_nil, hemp, greedyTake_nil]
    simp [chunkRuns, runs_nil]
  | cons line rest ih =>
    by_cases h1 : max_length ≤ (line.length : Int)
    · have hstop : max_length ≤ (sumLen acc : Int) + (line.length : Int) := by
        have : (0 : Int) ≤ (sumLen acc : Int) := Int.natCast_nonneg _
        omega
      rw [runs_cons_big max_length line rest acc h1, hemp,
        greedyTake_cons_stop max_length _ line rest hstop]
      simp only [Bool.false_eq_true, if_false, List.singleton_append,
        List.length_nil, List.drop_zero, List.append_nil]
      rw [chunkRuns, runs_cons_big max_length line rest [] h1]
      rfl
    · by_cases h2 : max_length ≤ (sumLen acc : Int) + (line.length : Int)
      · rw [runs_cons_flush max_length line rest acc h1 h2, hemp,
          greedyTake_cons_stop max_length _ line rest h2]
        simp only [Bool.false_eq_true, if_false, List.singleton_append,
          List.length_nil, List.drop_zero, List.append_nil]
        rw [chunkRuns, runs_cons_acc max_length line rest [] h1
          (by rw [sumLen_nil]; push_cast; omega)]
        rfl
      · rw [runs_cons_acc max_length line rest acc h1 h2,
          greedyTake_cons_go max_length _ line rest h2]
        have hacc2 : acc ++ [line] ≠ [] := by simp
        have hemp2 : (acc ++ [line]).isEmpty = false := by
          cases hx : acc ++ [line] with
          | nil => exact absurd hx hacc2
          | cons a as => rfl
        have hsmall2 : (sumLen (acc ++ [line]) : Int) < max_length := by
          rw [sumLen_append, sumLen_singleton]
          push_cast
          omega
        have := ih (acc ++ [line]) hacc2 hsmall2 hemp2
        rw [this]
        have hlen2 : (sumLen (acc ++ [line]) : Int) =
            (sumLen acc : Int) + (line.length : Int) := by
          rw [sumLen_append, sumLen_singleton]
          push_cast
          ring
        rw [hlen2]
        simp [List.append_assoc]

/-- The run-level chunking of a nonempty line list starts with the greedy
first chunk and continues with the chunking of the remaining lines. -/
theorem chunkRuns_cons (max_length : Int) (line : List Char)
    (rest : List (List Char)) :
    chunkRuns max_length (line :: rest) =
      greedyFirst max_length (line :: rest) ::
        chunkRuns max_length
          ((line :: rest).drop (greedyFirst max_length (line :: rest)).length) := by
  by_cases h1 : max_length ≤ (line.length : Int)
  · rw [chunkRuns, runs_cons_big max_length line rest [] h1]
    simp only [greedyFirst, if_pos h1]
    simp [chunkRuns]
  · rw [chunkRuns, runs_cons_acc max_length line rest [] h1
      (by rw [sumLen_nil]; push_cast; omega)]
    simp only [greedyFirst, if_neg h1]
    have := runs_decomp max_length rest [line] (by simp)
      (by rw [sumLen_singleton]; omega)
    rw [List.nil_append, this, sumLen_singleton]
    simp [List.drop_succ_cons]

theorem greedyFirst_length_pos (max_length : Int) (line : List Char)
    (rest : List (List Char)) :
    0 < (greedyFirst max_length (line :: rest)).length := by
  by_cases h1 : max_length ≤ (line.length : Int)
  · simp [greedyFirst, if_pos h1]
  · simp [greedyFirst, if_neg h1]

/-! ### Greedy maximality and minimal chunk count -/

theorem greedyTake_max (max_length : Int) {rest p t : List (List Char)}
    (accLen : Int) (hpre : p ++ t = rest)
    (hsum : accLen + (sumLen p : Int) < max_length) :
    p.length ≤ (greedyTake max_length accLen rest).length := by
  induction p generalizing rest accLen with
  | nil => simp
  | cons l p' ih =>
    subst hpre
    have hgo : ¬max_length ≤ accLen + (l.length : Int) := by
      rw [sumLen_cons] at hsum
      have : (0 : Int) ≤ (sumLen p' : Int) := Int.natCast_nonneg _
      push_cast at hsum
      omega
    rw [List.cons_append, greedyTake_cons_go max_length accLen l _ hgo]
    simp only [List.length_cons, Nat.add_le_add_iff_right]
    refine ih (accLen + (l.length : Int)) rfl ?_
    rw [sumLen_cons] at hsum
    push_cast at hsum ⊢
    omega

theorem greedyFirst_max (max_length : Int) {lines p t : List (List Char)}
    (hp : ValidPart max_length p) (hpre : p ++ t = lines) :
    p.length ≤ (greedyFirst max_length lines).length := by
  obtain ⟨hne, hval⟩ := hp
  cases p with
  | nil => exact absurd rfl hne
  | cons l p' =>
    subst hpre
    simp only [List.cons_append]
    by_cases h1 : max_length ≤ (l.length : Int)
    · simp only [greedyFirst, if_pos h1]
      rcases hval with hsum | ⟨l', heq⟩
      · exfalso
        rw [sumLen_cons] at hsum
        have : (0 : Int) ≤ (sumLen p' : Int) := Int.natCast_nonneg _
        push_cast at hsum
        omega
      · simp at heq
        simp [heq]
    · simp only [greedyFirst, if_neg h1]
      rcases hval with hsum | ⟨l', heq⟩
      · simp only [List.length_cons, Nat.add_le_add_iff_right]
        refine greedyTake_max max_length (l.length : Int) rfl ?_
        rw [sumLen_cons] at hsum
        push_cast at hsum ⊢
        omega
      · simp at heq
        simp [heq]

theorem sumLen_drop_le (k : Nat) (p : List (List Char)) :
    sumLen (p.drop k) ≤ sumLen p := by
  conv_rhs => rw [← List.take_append_drop k p]
  rw [sumLen_append]
  omega

/-- Dropping a line-boundary-aligned number of lines from the front of a
partitioned list yields a valid partition of the remainder that is no longer
than the original. -/
theorem partition_drop (max_length : Int) (P : List (List (List Char)))
    (hP : ∀ p ∈ P, ValidPart max_length p) (k : Nat) :
    ∃ Q : List (List (List Char)), (∀ q ∈ Q, ValidPart max_length q) ∧
      Q.flatten = P.flatten.drop k ∧ Q.length ≤ P.length := by
  induction P generalizing k with
  | nil => exact ⟨[], by simp, by simp, by simp⟩
  | cons p P' ih =>
    have hp := hP p (List.mem_cons_self p P')
    have hP' : ∀ q ∈ P', ValidPart max_length q :=
      fun q hq => hP q (List.mem_cons_of_mem p hq)
    by_cases hk : k < p.length
    · refine ⟨p.drop k :: P', ?_, ?_, by simp⟩
      · intro q hq
        rcases List.mem_cons.1 hq with h | h
        · subst h
          obtain ⟨hne, hval⟩ := hp
          refine ⟨?_, ?_⟩
          · intro hx
            have := congrArg List.length hx
            simp [List.length_drop] at this
            omega
          · rcases hval with hsum | ⟨l, heq⟩
            · left
              have := sumLen_drop_le k p
              have h0 : (sumLen (p.drop k) : Int) ≤ (sumLen p : Int) := by
                exact_mod_cast this
              omega
            · right
              subst heq
              simp at hk
              subst hk
              exact ⟨l, rfl⟩
        · exact hP' q h
      · rw [List.flatten_cons, List.flatten_cons,
          List.drop_append_of_le_length (Nat.le_of_lt hk)]
    · push_neg at hk
      obtain ⟨Q, hQval, hQflat, hQlen⟩ := ih hP' (k - p.length)
      refine ⟨Q, hQval, ?_, Nat.le_succ_of_le hQlen⟩
      rw [hQflat, List.flatten_cons, List.drop_append_eq_append_drop,
        List.drop_eq_nil_of_le hk]
      simp

theorem chunkRuns_min_aux (max_length : Int) :
    ∀ (n : Nat) (lines : List (List Char)), lines.length ≤ n →
      ∀ (P : List (List (List Char))), ValidPartition max_length P lines →
        (chunkRuns max_length lines).length ≤ P.length := by
  intro n
  induction n with
  | zero =>
    intro lines hlen P hP
    have hnil : lines = [] := List.eq_nil_of_length_eq_zero (Nat.le_zero.1 hlen)
    subst hnil
    simp [chunkRuns, runs_nil]
  | succ n ih =>
    intro lines hlen P hP
    cases lines with
    | nil => simp [chunkRuns, runs_nil]
    | cons line rest =>
      obtain ⟨hflat, hparts⟩ := hP
      cases P with
      | nil => simp at hflat
      | cons p P2 =>
        rw [List.flatten_cons] at hflat
        have hp := hparts p (List.mem_cons_self p P2)
        have hparts2 : ∀ q ∈ P2, ValidPart max_length q :=
          fun q hq => hparts q (List.mem_cons_of_mem p hq)
        have hpg : p.length ≤ (greedyFirst max_length (line :: rest)).length :=
          greedyFirst_max max_length hp hflat
        obtain ⟨Q, hQval, hQflat, hQlen⟩ :=
          partition_drop max_length P2 hparts2
            ((greedyFirst max_length (line :: rest)).length - p.length)
        have hrest2 : P2.flatten = (line :: rest).drop p.length := by
          rw [← hflat, List.drop_left]
        have hQflat2 : Q.flatten =
            (line :: rest).drop (greedyFirst max_length (line :: rest)).length := by
          rw [hQflat, hrest2, List.drop_drop]
          congr 1
          omega
        have hQpart : ValidPartition max_length Q
            ((line :: rest).drop (greedyFirst max_length (line :: rest)).length) :=
          ⟨hQflat2, hQval⟩
        have hgpos := greedyFirst_length_pos max_length line rest
        have hlen2 : ((line :: rest).drop
            (greedyFirst max_length (line :: rest)).length).length ≤ n := by
          rw [List.length_drop]
          simp only [List.length_cons] at hlen ⊢
          omega
        have hmain := ih _ hlen2 Q hQpart
        rw [chunkRuns_cons max_length line rest]
        simp only [List.length_cons]
        omega

/-- The greedy chunking uses no more chunks than any valid line-respecting
partition. -/
theorem chunkRuns_min (max_length : Int) (lines : List (List Char))
    (P : List (List (List Char))) (hP : ValidPartition max_length P lines) :
    (chunkRuns max_length lines).length ≤ P.length :=
  chunkRuns_min_aux max_length lines.length lines le_rfl P hP

/-! ### Further support lemmas -/

theorem isEmpty_false_of_ne {α : Type} {l : List α} (h : l ≠ []) :
    l.isEmpty = false := by
  cases l with
  | nil => exact absurd rfl h
  | cons a as => rfl

/-- Every line of a run produced by `chunkRuns` is one of the input lines. -/
theorem chunkRuns_mem_line (max_length : Int) (lines : List (List Char))
    {l : List Char} {run : List (List Char)}
    (hr : run ∈ chunkRuns max_length lines) (hl : l ∈ run) :
    l ∈ lines := by
  have hmem : l ∈ (chunkRuns max_length lines).flatten :=
    List.mem_flatten.2 ⟨run, hr, hl⟩
  rw [chunkRuns, chunkRunsLoop_flatten] at hmem
  simpa using hmem

/-- A line produced by `pySplitlines` is itself a complete single line:
splitting it again gives back exactly that one line. -/
theorem pySplitlines_mem_single (s : List Char) :
    ∀ l ∈ pySplitlines s, pySplitlines l = [l] := by
  induction s using pySplitlines.induct with
  | case1 => simp [pySplitlines_nil]
  | case2 h =>
    intro l hl
    rw [pySplitlines_cr_nil] at hl
    simp at hl
    rw [hl]
    exact pySplitlines_cr_nil
  | case3 rest2 h ih =>
    intro l hl
    rw [pySplitlines_crlf] at hl
    rcases List.mem_cons.1 hl with h1 | h1
    · rw [h1, pySplitlines_crlf, pySplitlines_nil]
    · exact ih l h1
  | case4 c2 rest2 hne h ih =>
    intro l hl
    rw [pySplitlines_cr_other c2 rest2 hne] at hl
    rcases List.mem_cons.1 hl with h1 | h1
    · rw [h1]
      exact pySplitlines_cr_nil
    · exact ih l h1
  | case5 c rest hb hne ih =>
    intro l hl
    rw [pySplitlines_break c rest hb hne] at hl
    rcases List.mem_cons.1 hl with h1 | h1
    · rw [h1, pySplitlines_break c [] hb hne, pySplitlines_nil]
    · exact ih l h1
  | case6 c rest hnb heq ih =>
    intro l hl
    rw [pySplitlines_nonbreak c rest (by simpa using hnb), heq] at hl
    simp at hl
    rw [hl, pySplitlines_nonbreak c [] (by simpa using hnb), pySplitlines_nil]
  | case7 c rest hnb l' ls heq ih =>
    intro l hl
    rw [pySplitlines_nonbreak c rest (by simpa using hnb), heq] at hl
    rcases List.mem_cons.1 hl with h1 | h1
    · have hl' : pySplitlines l' = [l'] :=
        ih l' (by rw [heq]; exact List.mem_cons_self l' ls)
      rw [h1, pySplitlines_nonbreak c l' (by simpa using hnb), hl']
    · exact ih l (by rw [heq]; exact List.mem_cons_of_mem l' h1)

/-- Splitting `w ++ '\n' :: s` where `w` has no break characters: the first
line is `w ++ ['\n']` and the rest is the splitting of `s`. -/
theorem pySplitlines_line_append (w : List Char)
    (hw : ∀ c ∈ w, isLineBreak c = false) (s : List Char) :
    pySplitlines (w ++ '\n' :: s) = (w ++ ['\n']) :: pySplitlines s := by
  induction w with
  | nil =>
    simp only [List.nil_append]
    exact pySplitlines_break '\n' s (by decide) (by decide)
  | cons c w' ih =>
    have hc : isLineBreak c = false := hw c (List.mem_cons_self c w')
    have hw' : ∀ x ∈ w', isLineBreak x = false :=
      fun x hx => hw x (List.mem_cons_of_mem c hx)
    rw [List.cons_append, pySplitlines_nonbreak c _ hc, ih hw']
    simp

/-- With a non-positive limit every line is "oversized", so the loop emits
each line as its own chunk. -/
theorem loop_nonpos (max_length : Int) (hml : max_length ≤ 0)
    (lines : List (List Char)) :
    split_string_by_lines_loop max_length lines [] = lines := by
  induction lines with
  | nil => rfl
  | cons line rest ih =>
    have h1 : max_length ≤ (line.length : Int) := by
      have : (0 : Int) ≤ (line.length : Int) := Int.natCast_nonneg _
      omega
    rw [loop_cons_big max_length line rest [] h1]
    simp [ih]

theorem length_le_sumLen {l : List Char} {run : List (List Char)}
    (h : l ∈ run) : l.length ≤ sumLen run := by
  induction run with
  | nil => simp at h
  | cons a rest ih =>
    rw [sumLen_cons]
    rcases List.mem_cons.1 h with h1 | h1
    · subst h1
      omega
    · have := ih h1
      omega

/-- Inside a run of total length below the limit, any two consecutive lines
have combined length below the limit. -/
theorem chain_of_sum {limit : Int} {run : List (List Char)}
    (h : (sumLen run : Int) < limit) :
    List.Chain' (fun a b => (a.length : Int) + (b.length : Int) < limit) run := by
  induction run with
  | nil => simp
  | cons a rest ih =>
    rw [List.chain'_cons']
    constructor
    · intro b hb
      have hmem : b ∈ rest := List.mem_of_mem_head? hb
      have h1 : b.length ≤ sumLen rest := length_le_sumLen hmem
      rw [sumLen_cons] at h
      push_cast at h
      omega
    · refine ih ?_
      rw [sumLen_cons] at h
      push_cast at h ⊢
      omega

theorem length_le_of_flatten {α : Type} {R : List (List α)}
    (h : ∀ r ∈ R, r ≠ []) : R.length ≤ R.flatten.length := by
  induction R with
  | nil => simp
  | cons r rest ih =>
    rw [List.flatten_cons, List.length_append, List.length_cons]
    have hr : r ≠ [] := h r (List.mem_cons_self r rest)
    have : 1 ≤ r.length := List.length_pos.2 hr
    have := ih fun x hx => h x (List.mem_cons_of_mem r hx)
    omega

/-! ### The concrete example inputs -/

theorem c7input_lines : pySplitlines c7input = [c7line1, c7line2] := by
  have h1 : ∀ c ∈ List.replicate 2000 'a', isLineBreak c = false := by
    intro c hc
    rw [List.eq_of_mem_replicate hc]
    decide
  have h2 : ∀ c ∈ List.replicate 2096 'b', isLineBreak c = false := by
    intro c hc
    rw [List.eq_of_mem_replicate hc]
    decide
  have eshape : c7input = List.replicate 2000 'a' ++ '\n' ::
      (List.replicate 2096 'b' ++ '\n' :: []) := by
    simp only [c7input, c7line1, c7line2, List.append_assoc,
      List.singleton_append]
  rw [eshape, pySplitlines_line_append _ h1, pySplitlines_line_append _ h2,
    pySplitlines_nil]
  rfl

theorem c7line1_length : c7line1.length = 2001 := by
  simp only [c7line1, List.length_append, List.length_replicate,
    List.length_singleton]

theorem c7line2_length : c7line2.length = 2097 := by
  simp only [c7line2, List.length_append, List.length_replicate,
    List.length_singleton]

theorem c7line1_ne_nil : c7line1 ≠ [] :=
  List.ne_nil_of_length_pos (by rw [c7line1_length]; norm_num)

theorem c7line2_ne_nil : c7line2 ≠ [] :=
  List.ne_nil_of_length_pos (by rw [c7line2_length]; norm_num)

theorem mixedInput_lines :
    pySplitlines mixedInput = [mixedShort1, mixedLong, mixedShort2] := by
  have h1 : ∀ c ∈ ['a', 'b'], isLineBreak c = false := by decide
  have h2 : ∀ c ∈ List.replicate 4999 'x', isLineBreak c = false := by
    intro c hc
    rw [List.eq_of_mem_replicate hc]
    decide
  have h3 : ∀ c ∈ ['c', 'd'], isLineBreak c = false := by decide
  have eshape : mixedInput = ['a', 'b'] ++ '\n' ::
      (List.replicate 4999 'x' ++ '\n' :: (['c', 'd'] ++ '\n' :: [])) := by
    simp only [mixedInput, mixedShort1, mixedLong, mixedShort2,
      List.append_assoc, List.singleton_append, List.cons_append,
      List.nil_append]
  rw [eshape, pySplitlines_line_append _ h1, pySplitlines_line_append _ h2,
    pySplitlines_line_append _ h3, pySplitlines_nil]
  rfl

theorem mixedLong_length : mixedLong.length = 5000 := by
  simp only [mixedLong, List.length_append, List.length_replicate,
    List.length_singleton]

theorem mixedShort1_length : mixedShort1.length = 3 := rfl

theorem mixedShort2_length : mixedShort2.length = 3 := rfl

theorem mixedShort1_ne_nil : mixedShort1 ≠ [] := by
  simp [mixedShort1]

theorem mixedShort2_ne_nil : mixedShort2 ≠ [] := by
  simp [mixedShort2]

theorem c7_eval : split_string_by_lines c7input 4096 = [c7line1, c7line2] := by
  rw [split_string_by_lines, c7input_lines]
  rw [loop_cons_acc 4096 c7line1 [c7line2] []
    (by rw [c7line1_length]; norm_num)
    (by rw [List.length_nil, c7line1_length]; norm_num)]
  rw [List.nil_append]
  rw [loop_cons_flush 4096 c7line2 [] c7line1
    (by rw [c7line2_length]; norm_num)
    (by rw [c7line1_length, c7line2_length]; norm_num)]
  rw [loop_nil, isEmpty_false_of_ne c7line1_ne_nil,
    isEmpty_false_of_ne c7line2_ne_nil]
  simp

theorem mixed_eval :
    split_string_by_lines mixedInput 4096 =
      [mixedShort1, mixedLong, mixedShort2] := by
  rw [split_string_by_lines, mixedInput_lines]
  rw [loop_cons_acc 4096 mixedShort1 [mixedLong, mixedShort2] []
    (by rw [mixedShort1_length]; norm_num)
    (by rw [List.length_nil, mixedShort1_length]; norm_num)]
  rw [List.nil_append]
  rw [loop_cons_big 4096 mixedLong [mixedShort2] mixedShort1
    (by rw [mixedLong_length]; norm_num)]
  rw [isEmpty_false_of_ne mixedShort1_ne_nil]
  rw [loop_cons_acc 4096 mixedShort2 [] []
    (by rw [mixedShort2_length]; norm_num)
    (by rw [List.length_nil, mixedShort2_length]; norm_num)]
  rw [List.nil_append, loop_nil, isEmpty_false_of_ne mixedShort2_ne_nil]
  simp

/-! ### The claims -/

/-- Claim C1: for every input string and every positive integer limit,
concatenating the chunks returned by `split_string_by_lines`, in order,
yields exactly the original input string (lossless partition). -/
theorem C1_roundtrip (text : List Char) (limit : Int) (hpos : 0 < limit) :
    (split_string_by_lines text limit).flatten = text := by
  rw [split_string_by_lines, split_string_by_lines_loop_flatten,
    pySplitlines_flatten, List.nil_append]

/-- Witness for C1 at a concrete input. -/
theorem C1_roundtrip_witness :
    (0 : Int) < 4096 ∧
      (split_string_by_lines ['a', '\n', 'b'] 4096).flatten = ['a', '\n', 'b'] :=
  ⟨by norm_num, C1_roundtrip ['a', '\n', 'b'] 4096 (by norm_num)⟩

/-- Claim C2: every chunk either has length strictly below the limit, or is
exactly one (oversized) line of the input whose own length reaches the
limit; that is the only way a chunk may reach or exceed the limit. -/
theorem C2_size_invariant (text : List Char) (limit : Int) (hpos : 0 < limit) :
    ∀ c ∈ split_string_by_lines text limit,
      (c.length : Int) < limit ∨
        (c ∈ pySplitlines text ∧ pySplitlines c = [c] ∧
          limit ≤ (c.length : Int)) := by
  intro c hc
  rw [split_eq_chunkRuns] at hc
  obtain ⟨run, hrun, hcrun⟩ := List.mem_map.1 hc
  have hsmall0 : ((sumLen ([] : List (List Char)) : Nat) : Int) < limit := by
    rw [sumLen_nil]
    exact_mod_cast hpos
  rcases chunkRunsLoop_small hpos (pySplitlines text) [] hsmall0 run hrun with
    hs | ⟨l, hrl, hlen⟩
  · left
    rw [← hcrun, length_flatten_eq_sumLen]
    exact hs
  · right
    subst hrl
    have hceq : c = l := by
      rw [← hcrun]
      simp
    subst hceq
    have hmem : c ∈ pySplitlines text :=
      chunkRuns_mem_line limit (pySplitlines text) hrun (by simp)
    exact ⟨hmem, pySplitlines_mem_single text c hmem, hlen⟩

/-- Witness for C2 at a concrete input. -/
theorem C2_size_invariant_witness :
    (0 : Int) < 4096 ∧
      ∀ c ∈ split_string_by_lines ['a', '\n', 'b'] 4096,
        (c.length : Int) < 4096 ∨
          (c ∈ pySplitlines ['a', '\n', 'b'] ∧ pySplitlines c = [c] ∧
            (4096 : Int) ≤ (c.length : Int)) :=
  ⟨by norm_num, C2_size_invariant ['a', '\n', 'b'] 4096 (by norm_num)⟩

/-- Claim C3: a line whose length reaches the limit is always emitted as its
own single chunk, never merged with neighbours (any run containing such a
line is exactly that line alone); and the mixed example — a short line, a
5000-character line, a short line, with limit 4096 — yields exactly the
three chunks short, long, short. -/
theorem C3_oversized_isolation (text : List Char) (limit : Int)
    (hpos : 0 < limit) :
    (∀ run ∈ chunkRuns limit (pySplitlines text), ∀ l ∈ run,
        limit ≤ (l.length : Int) → run = [l]) ∧
      split_string_by_lines mixedInput 4096 =
        [mixedShort1, mixedLong, mixedShort2] := by
  refine ⟨?_, mixed_eval⟩
  intro run hrun l hl hlen
  have hsmall0 : ((sumLen ([] : List (List Char)) : Nat) : Int) < limit := by
    rw [sumLen_nil]
    exact_mod_cast hpos
  rcases chunkRunsLoop_small hpos (pySplitlines text) [] hsmall0 run hrun with
    hs | ⟨l0, hrl, hlen0⟩
  · exfalso
    have h1 : (l.length : Int) ≤ (sumLen run : Int) := by
      exact_mod_cast length_le_sumLen hl
    omega
  · subst hrl
    have : l = l0 := by simpa using hl
    rw [this]

/-- Witness for C3 at a concrete input. -/
theorem C3_oversized_isolation_witness :
    (0 : Int) < 4096 ∧
      ((∀ run ∈ chunkRuns 4096 (pySplitlines mixedInput), ∀ l ∈ run,
          (4096 : Int) ≤ (l.length : Int) → run = [l]) ∧
        split_string_by_lines mixedInput 4096 =
          [mixedShort1, mixedLong, mixedShort2]) :=
  ⟨by norm_num, C3_oversized_isolation mixedInput 4096 (by norm_num)⟩

/-- Claim C4: the chunk list is exactly the flattening of a partition of the
input's line sequence into nonempty consecutive runs, in order: lines are
never split and never reordered. -/
theorem C4_whole_lines (text : List Char) (limit : Int) (hpos : 0 < limit) :
    split_string_by_lines text limit =
        (chunkRuns limit (pySplitlines text)).map List.flatten ∧
      (chunkRuns limit (pySplitlines text)).flatten = pySplitlines text ∧
      ∀ run ∈ chunkRuns limit (pySplitlines text), run ≠ [] := by
  refine ⟨split_eq_chunkRuns text limit, ?_,
    chunkRunsLoop_ne_nil limit (pySplitlines text) []⟩
  rw [chunkRuns, chunkRunsLoop_flatten, List.nil_append]

/-- Witness for C4 at a concrete input. -/
theorem C4_whole_lines_witness :
    (0 : Int) < 4096 ∧
      (split_string_by_lines ['a', '\n', 'b'] 4096 =
          (chunkRuns 4096 (pySplitlines ['a', '\n', 'b'])).map List.flatten ∧
        (chunkRuns 4096 (pySplitlines ['a', '\n', 'b'])).flatten =
          pySplitlines ['a', '\n', 'b'] ∧
        ∀ run ∈ chunkRuns 4096 (pySplitlines ['a', '\n', 'b']), run ≠ []) :=
  ⟨by norm_num, C4_whole_lines ['a', '\n', 'b'] 4096 (by norm_num)⟩

/-- Claim C5: no returned chunk is the empty string, and the empty input
yields the empty chunk list. -/
theorem C5_nonempty_and_empty_input (text : List Char) (limit : Int)
    (hpos : 0 < limit) :
    (∀ c ∈ split_string_by_lines text limit, c ≠ []) ∧
      split_string_by_lines [] limit = [] := by
  constructor
  · intro c hc
    exact split_string_by_lines_loop_ne_nil limit
      (fun l hl => pySplitlines_ne_nil hl) [] c hc
  · rw [split_string_by_lines, pySplitlines_nil, loop_nil]
    rfl

/-- Witness for C5 at a concrete input. -/
theorem C5_nonempty_and_empty_input_witness :
    (0 : Int) < 4096 ∧
      ((∀ c ∈ split_string_by_lines ['a', '\n', 'b'] 4096, c ≠ []) ∧
        split_string_by_lines [] 4096 = []) :=
  ⟨by norm_num, C5_nonempty_and_empty_input ['a', '\n', 'b'] 4096 (by norm_num)⟩

/-- Claim C6: any two consecutive chunks have combined length at least the
limit (so no two adjacent chunks could be merged into a chunk of length
below the limit), and the number of chunks is minimal among all
line-respecting partitions into parts that are below the limit or single
lines. -/
theorem C6_minimal_chunk_count (text : List Char) (limit : Int)
    (hpos : 0 < limit) :
    List.Chain' (fun a b => limit ≤ (a.length : Int) + (b.length : Int))
        (split_string_by_lines text limit) ∧
      ∀ P : List (List (List Char)),
        ValidPartition limit P (pySplitlines text) →
          (split_string_by_lines text limit).length ≤ P.length := by
  constructor
  · rw [split_string_by_lines]
    exact split_string_by_lines_loop_chain limit
      (fun l hl => pySplitlines_ne_nil hl) []
  · intro P hP
    rw [split_eq_chunkRuns, List.length_map]
    exact chunkRuns_min limit (pySplitlines text) P hP

/-- Witness for C6 at a concrete input. -/
theorem C6_minimal_chunk_count_witness :
    (0 : Int) < 4096 ∧
      (List.Chain' (fun a b => (4096 : Int) ≤ (a.length : Int) + (b.length : Int))
          (split_string_by_lines ['a', '\n', 'b'] 4096) ∧
        ∀ P : List (List (List Char)),
          ValidPartition 4096 P (pySplitlines ['a', '\n', 'b']) →
            (split_string_by_lines ['a', '\n', 'b'] 4096).length ≤ P.length) :=
  ⟨by norm_num, C6_minimal_chunk_count ['a', '\n', 'b'] 4096 (by norm_num)⟩

/-- Counterexample to claim C7 as stated: with keepends splitting, the two
lines of the exact-boundary example have lengths 2001 and 2097, so their
combined length is 4098, not exactly 4096. -/
theorem C7_counterexample :
    sumLen (pySplitlines c7input) = 4098 ∧
      sumLen (pySplitlines c7input) ≠ 4096 := by
  have h : sumLen (pySplitlines c7input) = 4098 := by
    rw [c7input_lines, sumLen_cons, sumLen_cons, sumLen_nil,
      c7line1_length, c7line2_length]
  exact ⟨h, by rw [h]; norm_num⟩

/-- Claim C7 as amended: the two lines of the exact-boundary example have
combined length 4098 (which is at least 4096), and the result is two
separate chunks, each equal to one of the original lines; in general, two
consecutive lines that end up in the same chunk have combined length below
the limit, so consecutive lines whose combined length reaches the limit
(including exactly the limit) land in separate chunks. -/
theorem C7_exact_boundary (text : List Char) (limit : Int)
    (hpos : 0 < limit) :
    (∀ run ∈ chunkRuns limit (pySplitlines text),
        List.Chain' (fun a b => (a.length : Int) + (b.length : Int) < limit)
          run) ∧
      split_string_by_lines c7input 4096 = [c7line1, c7line2] ∧
      c7line1.length + c7line2.length = 4098 := by
  refine ⟨?_, c7_eval, by rw [c7line1_length, c7line2_length]⟩
  intro run hrun
  have hsmall0 : ((sumLen ([] : List (List Char)) : Nat) : Int) < limit := by
    rw [sumLen_nil]
    exact_mod_cast hpos
  rcases chunkRunsLoop_small hpos (pySplitlines text) [] hsmall0 run hrun with
    hs | ⟨l0, hrl, hlen0⟩
  · exact chain_of_sum hs
  · subst hrl
    simp

/-- Witness for C7 at a concrete input. -/
theorem C7_exact_boundary_witness :
    (0 : Int) < 4096 ∧
      ((∀ run ∈ chunkRuns 4096 (pySplitlines c7input),
          List.Chain' (fun a b => (a.length : Int) + (b.length : Int) < 4096)
            run) ∧
        split_string_by_lines c7input 4096 = [c7line1, c7line2] ∧
        c7line1.length + c7line2.length = 4098) :=
  ⟨by norm_num, C7_exact_boundary c7input 4096 (by norm_num)⟩

/-- Claim C8: the function is a total pure function of its two arguments
(modelled as such, mirroring straight-line code with no I/O and no raise
statements), and its result is a finite list — here witnessed by the chunk
count being bounded by the line count of the input. -/
theorem C8_total_finite (text : List Char) (limit : Int) :
    (split_string_by_lines text limit).length ≤ (pySplitlines text).length := by
  have h1 : ∀ r ∈ chunkRuns limit (pySplitlines text), r ≠ [] :=
    chunkRunsLoop_ne_nil limit (pySplitlines text) []
  have h2 := length_le_of_flatten h1
  rw [chunkRuns, chunkRunsLoop_flatten, List.nil_append] at h2
  rw [split_eq_chunkRuns, List.length_map]
  exact h2

/-- Counterexample to claim C9 as stated: at `limit = 0` the function does
not fail fast with any error — it returns normally, here the whole input as
one chunk per line. -/
theorem C9_counterexample : split_string_by_lines ['a', 'b'] 0 = [['a', 'b']] := by
  decide

/-- Claim C9 as amended: the code performs no precondition check on the
limit; for every limit that is not positive it does not fail and returns
normally, producing exactly one chunk per input line. -/
theorem C9_no_failure_nonpositive (text : List Char) (limit : Int)
    (hnp : limit ≤ 0) :
    (split_string_by_lines text limit).length = (pySplitlines text).length := by
  rw [split_string_by_lines, loop_nonpos limit hnp]

/-- Witness for C9 at a concrete input. -/
theorem C9_no_failure_nonpositive_witness :
    (0 : Int) ≤ 0 ∧
      (split_string_by_lines ['a', 'b'] 0).length =
        (pySplitlines ['a', 'b']).length :=
  ⟨le_refl 0, C9_no_failure_nonpositive ['a', 'b'] 0 (le_refl 0)⟩

/-- Claim C10: for every non-positive limit the function does not raise and
returns exactly the input's line list with terminators kept — every line's
length is at least the limit, so the oversized-line branch fires for every
line and each line becomes its own chunk. -/
theorem C10_nonpositive_limit (text : List Char) (limit : Int)
    (hnp : limit ≤ 0) :
    split_string_by_lines text limit = pySplitlines text := by
  rw [split_string_by_lines, loop_nonpos limit hnp]

/-- Witness for C10 at a concrete input. -/
theorem C10_nonpositive_limit_witness :
    (-5 : Int) ≤ 0 ∧
      split_string_by_lines ['a', '\n', 'b'] (-5) =
        pySplitlines ['a', '\n', 'b'] :=
  ⟨by norm_num, C10_nonpositive_limit ['a', '\n', 'b'] (-5) (by norm_num)⟩
